import Mathlib

/-
Verification of the hexmap hexagonal-grid library: coordinate algebra
(axial and cube coordinates), shape generators (line, ring, area,
adjacent), the sparse hex map, and Dijkstra-style pathfinding.

Machine integers (isize) are modelled as ℤ.  The f32 values used by
CubeCoords::round and the line interpolation are modelled by `F32`
below: a rational value or NaN, with every operation correctly rounded
to 24-bit significand precision (bit-exact within the normal range).
Hash containers (HashMap / HashSet)
are modelled as association lists / insertion-ordered duplicate-free
lists; HashSet iteration order is modelled as insertion order.
-/

namespace Hexmap

/-- Axial coordinates: integer pair (q, r) (src/coords/axial.rs). -/
structure AxialCoords where
  q : ℤ
  r : ℤ
deriving DecidableEq, Repr

/-- Cube coordinates: integer triple (q, r, s) (src/coords/cube_coords.rs). -/
structure CubeCoords where
  q : ℤ
  r : ℤ
  s : ℤ
deriving DecidableEq, Repr

/-- `AxialCoords::ZERO`. -/
def AxialCoords.ZERO : AxialCoords := ⟨0, 0⟩

/-- `CubeCoords::ZERO`. -/
def CubeCoords.ZERO : CubeCoords := ⟨0, 0, 0⟩

/-- `impl Add for AxialCoords`: componentwise. -/
def AxialCoords.add (a b : AxialCoords) : AxialCoords :=
  ⟨a.q + b.q, a.r + b.r⟩

/-- `impl Sub for AxialCoords`: componentwise. -/
def AxialCoords.sub (a b : AxialCoords) : AxialCoords :=
  ⟨a.q - b.q, a.r - b.r⟩

/-- `impl Mul<usize> for AxialCoords` (scalar is cast to isize). -/
def AxialCoords.mulScalar (a : AxialCoords) (k : ℤ) : AxialCoords :=
  ⟨a.q * k, a.r * k⟩

/-- `From<AxialCoords> for CubeCoords`: s = -q - r. -/
def CubeCoords.ofAxial (a : AxialCoords) : CubeCoords :=
  ⟨a.q, a.r, -a.q - a.r⟩

/-- `From<CubeCoords> for AxialCoords`: drops s. -/
def AxialCoords.ofCube (c : CubeCoords) : AxialCoords :=
  ⟨c.q, c.r⟩

/-- `CubeCoords::is_valid`: q + r + s == 0. -/
def CubeCoords.is_valid (c : CubeCoords) : Bool :=
  c.q + c.r + c.s == 0

/-- `impl Add for CubeCoords` is routed through the axial representation:
`CubeCoords::from(AxialCoords::from(self) + AxialCoords::from(rhs))`. -/
def CubeCoords.add (a b : CubeCoords) : CubeCoords :=
  CubeCoords.ofAxial (AxialCoords.add (AxialCoords.ofCube a) (AxialCoords.ofCube b))

/-- `impl Sub for CubeCoords`, likewise routed through axial coordinates. -/
def CubeCoords.sub (a b : CubeCoords) : CubeCoords :=
  CubeCoords.ofAxial (AxialCoords.sub (AxialCoords.ofCube a) (AxialCoords.ofCube b))

/-- `impl Neg for CubeCoords`: `Self::new(-q, -r, -s)` (the validity check of
`new` always passes for a valid argument and is not modelled). -/
def CubeCoords.neg (a : CubeCoords) : CubeCoords :=
  ⟨-a.q, -a.r, -a.s⟩

/-- `impl Mul<isize> for CubeCoords`: componentwise scalar multiple (via
`Self::new`, whose validity check always passes here). -/
def CubeCoords.mulScalar (a : CubeCoords) (k : ℤ) : CubeCoords :=
  ⟨a.q * k, a.r * k, a.s * k⟩

/-- `CubeCoords::distance`: `(|Δq| + |Δr| + |Δs|) / 2` where the delta is
computed by `Sub`.  The numerator is non-negative, so Rust's truncating
isize division agrees with ℤ division. -/
def CubeCoords.distance (a b : CubeCoords) : ℤ :=
  let v := CubeCoords.sub a b
  ((v.q.natAbs + v.r.natAbs + v.s.natAbs : ℕ) : ℤ) / 2

/-- `AxialCoords::distance`: converts to cube coordinates and uses
`CubeCoords::distance`. -/
def AxialCoords.distance (a b : AxialCoords) : ℤ :=
  CubeCoords.distance (CubeCoords.ofAxial a) (CubeCoords.ofAxial b)

/-- `<CubeCoords as HexCoords>::ring` (src/coords/cube_coords.rs lines
121-139): for radius 0, `[center]`; otherwise for each `i in 0..radius`
six pushes.  Note the source negates the running corners themselves
(`-corner_q - dir * i`), i.e. it reflects through the origin, not through
`center`. -/
def CubeCoords.ring (center : CubeCoords) (radius : ℕ) : List CubeCoords :=
  if radius = 0 then [center]
  else
    let corner_q := center.add (CubeCoords.mulScalar ⟨0, -1, 1⟩ radius)
    let corner_r := center.add (CubeCoords.mulScalar ⟨1, 0, -1⟩ radius)
    let corner_s := center.add (CubeCoords.mulScalar ⟨-1, 1, 0⟩ radius)
    (List.range radius).flatMap (fun i =>
      [ corner_q.add (CubeCoords.mulScalar ⟨1, 0, -1⟩ i),
        (corner_q.neg).sub (CubeCoords.mulScalar ⟨1, 0, -1⟩ i),
        corner_r.add (CubeCoords.mulScalar ⟨-1, 1, 0⟩ i),
        (corner_r.neg).sub (CubeCoords.mulScalar ⟨-1, 1, 0⟩ i),
        corner_s.add (CubeCoords.mulScalar ⟨0, -1, 1⟩ i),
        (corner_s.neg).sub (CubeCoords.mulScalar ⟨0, -1, 1⟩ i) ])

/-- `<CubeCoords as HexCoords>::area` (src/coords/cube_coords.rs lines
141-149): appends `ring(center, i)` for `i in 0..radius` — the loop bound
excludes `radius` itself. -/
def CubeCoords.area (center : CubeCoords) (radius : ℕ) : List CubeCoords :=
  (List.range radius).flatMap (fun i => CubeCoords.ring center i)

/-- `<AxialCoords as HexCoords>::ring` (src/coords/axial.rs lines 60-74):
all six edges are offsets added to `center`. -/
def AxialCoords.ring (center : AxialCoords) (radius : ℕ) : List AxialCoords :=
  if radius = 0 then [center]
  else
    let constQ : AxialCoords := ⟨1, 0⟩
    let constR : AxialCoords := ⟨0, 1⟩
    let constS : AxialCoords := ⟨-1, 1⟩
    (List.range radius).flatMap (fun i =>
      [ (center.add (constQ.mulScalar radius)).add (constS.mulScalar i),
        (center.add (constR.mulScalar radius)).sub (constQ.mulScalar i),
        (center.add (constS.mulScalar radius)).sub (constR.mulScalar i),
        (center.sub (constQ.mulScalar radius)).sub (constS.mulScalar i),
        (center.sub (constR.mulScalar radius)).add (constQ.mulScalar i),
        (center.sub (constS.mulScalar radius)).add (constR.mulScalar i) ])

/-- The `HexCoords::area` default implementation (src/coords/mod.rs lines
53-62): appends `ring(center, i)` for `i in 0..radius+1` (inclusive of
`radius`).  `AxialCoords` does not override it. -/
def AxialCoords.area (center : AxialCoords) (radius : ℕ) : List AxialCoords :=
  (List.range (radius + 1)).flatMap (fun i => AxialCoords.ring center i)

/-- `<CubeCoords as HexCoords>::adjacent`, in source order. -/
def CubeCoords.adjacent (center : CubeCoords) : List CubeCoords :=
  [ center.add ⟨0, -1, 1⟩,
    center.add ⟨1, -1, 0⟩,
    center.add ⟨1, 0, -1⟩,
    center.add ⟨0, 1, -1⟩,
    center.add ⟨-1, 1, 0⟩,
    center.add ⟨-1, 0, 1⟩ ]

/- ------------------------------------------------------------------ -/
/- Exact model of the f32 values flowing through round / lerp / line.  -/
/- ------------------------------------------------------------------ -/

/-- Rational arithmetic helpers for the f32 model, written with `mkRat`
over numerators and denominators so that they reduce during kernel
evaluation (the library arithmetic on ℚ is deliberately irreducible).
Each helper is proved equal to the corresponding ℚ operation below. -/
def ratOfInt (i : ℤ) : ℚ := mkRat i 1

/-- Negation on ℚ via `mkRat`. -/
def ratNeg (x : ℚ) : ℚ := mkRat (-x.num) x.den

/-- Absolute value on ℚ via `mkRat`. -/
def ratAbs (x : ℚ) : ℚ := if x.num < 0 then ratNeg x else x

/-- Addition on ℚ via `mkRat`. -/
def ratAdd (x y : ℚ) : ℚ := mkRat (x.num * y.den + y.num * x.den) (x.den * y.den)

/-- Subtraction on ℚ via `mkRat`. -/
def ratSub (x y : ℚ) : ℚ := mkRat (x.num * y.den - y.num * x.den) (x.den * y.den)

/-- Multiplication on ℚ via `mkRat`. -/
def ratMul (x y : ℚ) : ℚ := mkRat (x.num * y.num) (x.den * y.den)

/-- Division on ℚ via `mkRat` (agrees with `x / y` for `y ≠ 0`). -/
def ratDiv (x y : ℚ) : ℚ :=
  if 0 ≤ y.num then mkRat (x.num * y.den) (x.den * y.num.toNat)
  else mkRat (-(x.num * y.den)) (x.den * (-y.num).toNat)

/-- `x * 2^k` on ℚ via `mkRat`. -/
def ratScale2 (x : ℚ) (k : ℤ) : ℚ :=
  if 0 ≤ k then mkRat (x.num * 2 ^ k.toNat) x.den
  else mkRat x.num (x.den * 2 ^ (-k).toNat)

/-- `ratOfInt` is the integer coercion. -/
theorem ratOfInt_eq (i : ℤ) : ratOfInt i = (i : ℚ) := by
  rw [ratOfInt, Rat.mkRat_eq_div]
  simp

/-- `ratNeg` is negation. -/
theorem ratNeg_eq (x : ℚ) : ratNeg x = -x := by
  rw [ratNeg, Rat.mkRat_eq_div, Int.cast_neg, neg_div, Rat.num_div_den]

/-- `ratAbs` is the absolute value. -/
theorem ratAbs_eq (x : ℚ) : ratAbs x = |x| := by
  rw [ratAbs]
  split
  next h =>
    have hx : x < 0 := by
      by_contra hge
      exact absurd (Rat.num_nonneg.mpr (le_of_not_lt hge)) (not_le.mpr h)
    rw [ratNeg_eq, abs_of_neg hx]
  next h =>
    have hx : 0 ≤ x := Rat.num_nonneg.mp (le_of_not_lt h)
    rw [abs_of_nonneg hx]

/-- `ratAdd` is addition. -/
theorem ratAdd_eq (x y : ℚ) : ratAdd x y = x + y := by
  have hx : ((x.den : ℚ)) ≠ 0 := Nat.cast_ne_zero.mpr x.den_nz
  have hy : ((y.den : ℚ)) ≠ 0 := Nat.cast_ne_zero.mpr y.den_nz
  have nx : (x.num : ℚ) = x * x.den := (div_eq_iff hx).mp (Rat.num_div_den x)
  have ny : (y.num : ℚ) = y * y.den := (div_eq_iff hy).mp (Rat.num_div_den y)
  rw [ratAdd, Rat.mkRat_eq_div]
  push_cast
  rw [div_eq_iff (mul_ne_zero hx hy), nx, ny]
  ring

/-- `ratSub` is subtraction. -/
theorem ratSub_eq (x y : ℚ) : ratSub x y = x - y := by
  have hx : ((x.den : ℚ)) ≠ 0 := Nat.cast_ne_zero.mpr x.den_nz
  have hy : ((y.den : ℚ)) ≠ 0 := Nat.cast_ne_zero.mpr y.den_nz
  have nx : (x.num : ℚ) = x * x.den := (div_eq_iff hx).mp (Rat.num_div_den x)
  have ny : (y.num : ℚ) = y * y.den := (div_eq_iff hy).mp (Rat.num_div_den y)
  rw [ratSub, Rat.mkRat_eq_div]
  push_cast
  rw [div_eq_iff (mul_ne_zero hx hy), nx, ny]
  ring

/-- `ratMul` is multiplication. -/
theorem ratMul_eq (x y : ℚ) : ratMul x y = x * y := by
  have hx : ((x.den : ℚ)) ≠ 0 := Nat.cast_ne_zero.mpr x.den_nz
  have hy : ((y.den : ℚ)) ≠ 0 := Nat.cast_ne_zero.mpr y.den_nz
  have nx : (x.num : ℚ) = x * x.den := (div_eq_iff hx).mp (Rat.num_div_den x)
  have ny : (y.num : ℚ) = y * y.den := (div_eq_iff hy).mp (Rat.num_div_den y)
  rw [ratMul, Rat.mkRat_eq_div]
  push_cast
  rw [div_eq_iff (mul_ne_zero hx hy), nx, ny]
  ring

/-- `ratDiv` is division whenever the divisor is non-zero (the f32 model
only divides after its NaN guard). -/
theorem ratDiv_eq (x y : ℚ) (h : y ≠ 0) : ratDiv x y = x / y := by
  have hx : ((x.den : ℚ)) ≠ 0 := Nat.cast_ne_zero.mpr x.den_nz
  have hy : ((y.den : ℚ)) ≠ 0 := Nat.cast_ne_zero.mpr y.den_nz
  have hnum : y.num ≠ 0 := Rat.num_ne_zero.mpr h
  have hnumq : ((y.num : ℚ)) ≠ 0 := Int.cast_ne_zero.mpr hnum
  have nx : (x.num : ℚ) = x * x.den := (div_eq_iff hx).mp (Rat.num_div_den x)
  have ny : (y.num : ℚ) = y * y.den := (div_eq_iff hy).mp (Rat.num_div_den y)
  rw [ratDiv]
  split
  next hpos =>
    rw [Rat.mkRat_eq_div]
    push_cast
    have ht : ((y.num.toNat : ℕ) : ℚ) = (y.num : ℚ) := by
      exact_mod_cast Int.toNat_of_nonneg hpos
    rw [ht, div_eq_div_iff (mul_ne_zero hx hnumq) h, nx, ny]
    ring
  next hneg =>
    rw [Rat.mkRat_eq_div]
    push_cast
    have ht : (((-y.num).toNat : ℕ) : ℚ) = -(y.num : ℚ) := by
      exact_mod_cast Int.toNat_of_nonneg (by omega : (0:ℤ) ≤ -y.num)
    rw [ht, div_eq_div_iff (by simpa using mul_ne_zero hx (neg_ne_zero.mpr hnumq)) h, nx, ny]
    ring

/-- `ratScale2 x k` is `x * 2^k`. -/
theorem ratScale2_eq (x : ℚ) (k : ℤ) : ratScale2 x k = x * (2 : ℚ) ^ k := by
  have hx : ((x.den : ℚ)) ≠ 0 := Nat.cast_ne_zero.mpr x.den_nz
  have nx : (x.num : ℚ) = x * x.den := (div_eq_iff hx).mp (Rat.num_div_den x)
  rw [ratScale2]
  split
  next hpos =>
    rw [Rat.mkRat_eq_div]
    push_cast
    rw [div_eq_iff hx, nx]
    rw [show ((2 : ℚ) ^ k.toNat : ℚ) = (2 : ℚ) ^ ((k.toNat : ℤ)) from (zpow_natCast _ _).symm]
    rw [Int.toNat_of_nonneg hpos]
    ring
  next hneg =>
    rw [Rat.mkRat_eq_div]
    push_cast
    have hp : ((2 : ℚ) ^ (-k).toNat : ℚ) ≠ 0 := by positivity
    rw [div_eq_iff (mul_ne_zero hx hp), nx]
    rw [show ((2 : ℚ) ^ (-k).toNat : ℚ) = (2 : ℚ) ^ (((-k).toNat : ℤ)) from (zpow_natCast _ _).symm]
    rw [show (((-k).toNat : ℤ)) = -k by omega]
    have h2 : (2:ℚ) ^ k * (2:ℚ) ^ (-k) = 1 := by
      rw [← zpow_add₀ (two_ne_zero : (2:ℚ) ≠ 0)]
      simp
    linear_combination (-(x * ((x.den : ℚ)))) * h2

/-- Binary digit count, with fuel bounding the halving depth so that the
recursion reduces definitionally.  The fixed fuel 320 is ample: every
rational reaching `f32round` below is a single exact operation on f32
values, whose numerators and denominators stay far below 2^320. -/
def natBitsAux : ℕ → ℕ → ℕ
  | 0, _ => 0
  | fuel + 1, n => if n = 0 then 0 else natBitsAux fuel (n / 2) + 1

/-- Number of binary digits of `n` (0 for 0):
`2^(natBits n - 1) ≤ n < 2^(natBits n)` for positive `n`. -/
def natBits (n : ℕ) : ℕ := natBitsAux 320 n

/-- `⌊log2 (n / d)⌋` for positive naturals `n`, `d`: the digit-count
difference is correct up to one, and one exact comparison settles it. -/
def qLog2 (n d : ℕ) : ℤ :=
  let k0 : ℤ := (natBits n : ℤ) - (natBits d : ℤ)
  if n * 2 ^ (-k0).toNat ≥ d * 2 ^ k0.toNat then k0 else k0 - 1

/-- Round a non-negative rational to the nearest integer, ties to even. -/
def roundTiesEven (q : ℚ) : ℤ :=
  let fl := Rat.floor q
  let frac := ratSub q (ratOfInt fl)
  if frac < mkRat 1 2 then fl
  else if mkRat 1 2 < frac then fl + 1
  else if fl % 2 = 0 then fl else fl + 1

/-- IEEE round-to-nearest (ties to even) at 24-bit significand precision:
the value an f32 operation returns for the exact rational result `x`.
The magnitude is scaled into `[2^23, 2^24)` and rounded there with ties
to even.  Exponent overflow to infinity (|x| ≥ 2^128) and subnormal
quantization (|x| < 2^-126) are not modelled; no computation below
reaches either range. -/
def f32round (x : ℚ) : ℚ :=
  if x = 0 then 0
  else
    let m : ℚ := ratAbs x
    let e : ℤ := qLog2 m.num.toNat m.den - 23
    let rounded : ℚ := ratScale2 (ratOfInt (roundTiesEven (ratScale2 m (-e)))) e
    if 0 < x then rounded else ratNeg rounded

/-- Model of an IEEE f32 as a rational value or NaN.  Every arithmetic
operation rounds its exact rational result with `f32round`, as IEEE 754
prescribes for the default rounding mode, so the model is bit-exact
within the normal range. -/
inductive F32 where
  | val : ℚ → F32
  | nan : F32
deriving DecidableEq, Repr

/-- Rust `i as f32`: round to nearest, ties to even. -/
def F32.ofInt (i : ℤ) : F32 :=
  F32.val (f32round (ratOfInt i))

/-- f32 addition, correctly rounded: NaN propagates. -/
def F32.add : F32 → F32 → F32
  | F32.val x, F32.val y => F32.val (f32round (ratAdd x y))
  | _, _ => F32.nan

/-- f32 subtraction, correctly rounded: NaN propagates. -/
def F32.sub : F32 → F32 → F32
  | F32.val x, F32.val y => F32.val (f32round (ratSub x y))
  | _, _ => F32.nan

/-- f32 multiplication, correctly rounded: NaN propagates (in particular
0 * NaN = NaN). -/
def F32.mul : F32 → F32 → F32
  | F32.val x, F32.val y => F32.val (f32round (ratMul x y))
  | _, _ => F32.nan

/-- f32 division, correctly rounded: 0/0 is NaN.  (f32 yields ±infinity
for x/0 with x ≠ 0; infinities are conflated with NaN here — no
computation below divides a non-zero value by zero.) -/
def F32.div : F32 → F32 → F32
  | F32.val x, F32.val y => if y = 0 then F32.nan else F32.val (f32round (ratDiv x y))
  | _, _ => F32.nan

/-- f32 absolute value (exact: it only clears the sign bit). -/
def F32.abs : F32 → F32
  | F32.val x => F32.val (ratAbs x)
  | F32.nan => F32.nan

/-- f32 `>` comparison: any comparison with NaN is false. -/
def F32.gt : F32 → F32 → Bool
  | F32.val x, F32.val y => decide (y < x)
  | _, _ => false

/-- Rust `f32::round`: round half away from zero.  Exact: its argument is
an f32 value and every integral candidate magnitude is representable. -/
def rustRound (x : ℚ) : ℤ :=
  if 0 ≤ x then Rat.floor (ratAdd x (mkRat 1 2))
  else -(Rat.floor (ratAdd (ratNeg x) (mkRat 1 2)))

/-- Rust `f.round() as isize`: NaN casts to 0 (saturating float-to-int
cast); isize saturation bounds are not modelled (ℤ). -/
def F32.toIsize : F32 → ℤ
  | F32.val x => rustRound x
  | F32.nan => 0

/-- `lerp::Lerp for f32`: `self + ((other - self) * t)`. -/
def F32.lerp (a b t : F32) : F32 :=
  a.add ((b.sub a).mul t)

/-- `CubeCoords::round` (src/coords/cube_coords.rs lines 51-78): round each
axis, and if the result is invalid recompute the axis with the greatest
rounding error as the negated sum of the other two.  `none` models the
final `RoundingFailure` panic branch. -/
def CubeCoords.round (q r s : F32) : Option CubeCoords :=
  let output : CubeCoords := ⟨q.toIsize, r.toIsize, s.toIsize⟩
  if output.is_valid then some output
  else
    let diff_q := (q.sub (F32.ofInt output.q)).abs
    let diff_r := (r.sub (F32.ofInt output.r)).abs
    let diff_s := (s.sub (F32.ofInt output.s)).abs
    let corrected : CubeCoords :=
      if diff_q.gt diff_r && diff_q.gt diff_s then
        { output with q := -output.r - output.s }
      else if diff_r.gt diff_s then
        { output with r := -output.q - output.s }
      else
        { output with s := -output.q - output.r }
    if corrected.is_valid then some corrected else none

/-- `Lerp for CubeCoords`: componentwise f32 lerp, then `round`. -/
def CubeCoords.lerp (a b : CubeCoords) (t : F32) : Option CubeCoords :=
  CubeCoords.round
    (F32.lerp (F32.ofInt a.q) (F32.ofInt b.q) t)
    (F32.lerp (F32.ofInt a.r) (F32.ofInt b.r) t)
    (F32.lerp (F32.ofInt a.s) (F32.ofInt b.s) t)

/-- `<CubeCoords as HexCoords>::line` (src/coords/cube_coords.rs lines
110-119): `tiles = distance(a,b) + 1` samples at `t = i / (tiles - 1)`;
for `a = b` this computes `t = 0.0 / 0.0 = NaN`.  `none` models a panic
inside `round`. -/
def CubeCoords.line (a b : CubeCoords) : Option (List CubeCoords) :=
  let tiles : ℤ := CubeCoords.distance a b + 1
  (List.range tiles.toNat).mapM (fun i =>
    let t : F32 := (F32.ofInt i).div (F32.ofInt (tiles - 1))
    CubeCoords.lerp a b t)

/- ------------------------------------------------------------------ -/
/- Sparse hex map and pathfinding (src/map/mod.rs, pathfinding.rs).    -/
/- ------------------------------------------------------------------ -/

/-- Association-list lookup, modelling `HashMap::get`. -/
def assocGet {C V : Type} [DecidableEq C] : List (C × V) → C → Option V
  | [], _ => none
  | (k, v) :: rest, c => if k = c then some v else assocGet rest c

/-- Association-list insert with overwrite, modelling `HashMap::insert`. -/
def assocInsert {C V : Type} [DecidableEq C] : List (C × V) → C → V → List (C × V)
  | [], c, v => [(c, v)]
  | (k, w) :: rest, c, v => if k = c then (c, v) :: rest else (k, w) :: assocInsert rest c v

/-- Duplicate-free insertion-ordered list insert, modelling
`HashSet::insert`.  HashSet iteration order is unspecified in Rust; it is
modelled here as insertion order. -/
def setInsert {C : Type} [DecidableEq C] (l : List C) (c : C) : List C :=
  if c ∈ l then l else l ++ [c]

/-- `HexMap<C, T>` (src/map/mod.rs): a coordinate-keyed tile store; the
`HashMap` field is modelled as an association list. -/
structure HexMap (C T : Type) where
  map : List (C × T)
deriving DecidableEq, Repr

/-- `HexMap::new`. -/
def HexMap.new {C T : Type} : HexMap C T := ⟨[]⟩

/-- `HexMap::get`. -/
def HexMap.get {C T : Type} [DecidableEq C] (m : HexMap C T) (coords : C) : Option T :=
  assocGet m.map coords

/-- `HexMap::insert`: overwrite semantics. -/
def HexMap.insert {C T : Type} [DecidableEq C] (m : HexMap C T) (coords : C) (tile : T) :
    HexMap C T :=
  ⟨assocInsert m.map coords tile⟩

/-- `HexMap::insert_area`: inserts a clone of `tile` at every coordinate
of `C::area(center, radius)`.  The trait method `area` is passed
explicitly, mirroring the `C: HexCoords` bound. -/
def HexMap.insert_area {C T : Type} [DecidableEq C] (areaFn : C → ℕ → List C)
    (m : HexMap C T) (center : C) (radius : ℕ) (tile : T) : HexMap C T :=
  (areaFn center radius).foldl (fun acc coord => acc.insert coord tile) m

/-- `PathNode` (src/map/pathfinding.rs): total cost (an f32 that is always
an exact sum of cost-function values; modelled as ℚ) and optional
predecessor. -/
structure PathNode (C : Type) where
  total_cost : ℚ
  prev_coords : Option C
deriving DecidableEq, Repr

/-- `PathNode::default`: cost 0.0, no predecessor. -/
def PathNode.zero {C : Type} : PathNode C := ⟨0, none⟩

/-- `PathMap` (src/map/pathfinding.rs): frontier (`coords_to_search`) and
visited (`searched_coords`) sets as insertion-ordered lists, and the node
table as an association list. -/
structure PathMap (C : Type) where
  coords_to_search : List C
  searched_coords : List C
  nodes : List (C × PathNode C)
deriving DecidableEq, Repr

/-- `PathMap::default`: all three containers empty. -/
def PathMap.empty {C : Type} : PathMap C := ⟨[], [], []⟩

/-- `PathMap::get_node`. -/
def PathMap.get_node {C : Type} [DecidableEq C] (pm : PathMap C) (coords : C) :
    Option (PathNode C) :=
  assocGet pm.nodes coords

/-- `PathMap::add_node`: adds `coords` to the frontier and the node table. -/
def PathMap.add_node {C : Type} [DecidableEq C] (pm : PathMap C) (coords : C)
    (node : PathNode C) : PathMap C :=
  { pm with
    coords_to_search := setInsert pm.coords_to_search coords,
    nodes := assocInsert pm.nodes coords node }

/-- `PathMap::starting_from`: seeds the map with a default node. -/
def PathMap.starting_from {C : Type} [DecidableEq C] (pm : PathMap C) (start_coords : C) :
    PathMap C :=
  pm.add_node start_coords PathNode.zero

/-- `PathMap::insert_node`: replaces an existing node only when the new
cost is strictly lower; otherwise adds a fresh node (and frontier entry). -/
def PathMap.insert_node {C : Type} [DecidableEq C] (pm : PathMap C) (coords : C)
    (new_node : PathNode C) : PathMap C :=
  match pm.get_node coords with
  | some existing_node =>
    if new_node.total_cost < existing_node.total_cost then
      { pm with nodes := assocInsert pm.nodes coords new_node }
    else pm
  | none => pm.add_node coords new_node

/-- `PathMap::eval_move`: relaxes the edge `source → dest` with total cost
`cost`.  An existing node keeps its frontier/visited status; a new node is
added to the frontier via `insert_node`. -/
def PathMap.eval_move {C : Type} [DecidableEq C] (pm : PathMap C) (source dest : C)
    (cost : ℚ) : PathMap C :=
  match assocGet pm.nodes dest with
  | some node =>
    if cost < node.total_cost then
      { pm with nodes := assocInsert pm.nodes dest ⟨cost, some source⟩ }
    else pm
  | none => pm.insert_node dest ⟨cost, some source⟩

/-- `PathMap::eval_coords`: reads the source node once (`.unwrap()` — the
source always has a node when called from `find_path`, so the panic is
modelled by a default that is never reached), then relaxes every adjacent
coordinate holding a stored tile.  The trait method `adjacent` is passed
explicitly. -/
def PathMap.eval_coords {C T : Type} [DecidableEq C] (adj : C → List C) (pm : PathMap C)
    (source : C) (m : HexMap C T) (cost_fn : C → C → HexMap C T → ℚ) : PathMap C :=
  let source_node := (pm.get_node source).getD PathNode.zero
  (adj source).foldl
    (fun acc neighbor_coord =>
      match m.get neighbor_coord with
      | some _ => acc.eval_move source neighbor_coord
          (source_node.total_cost + cost_fn source neighbor_coord m)
      | none => acc)
    pm

/-- The `while let Some(c) = next_coords` walk of `PathMap::trace_path`.
The predecessor chain built by `find_path` is acyclic and at most
`nodes.length` long, so the fuel never runs out there. -/
def tracePathAux {C : Type} [DecidableEq C] (nodes : List (C × PathNode C)) :
    ℕ → Option C → List C → List C
  | 0, _, path => path
  | _ + 1, none, path => path
  | fuel + 1, some c, path =>
    let node := (assocGet nodes c).getD PathNode.zero
    tracePathAux nodes fuel node.prev_coords
      (if node.prev_coords.isSome then path ++ [c] else path)

/-- `PathMap::trace_path`: follows predecessor links back from `dest`,
pushing every coordinate that has a predecessor (which excludes the seed),
then reverses into forward order. -/
def PathMap.trace_path {C : Type} [DecidableEq C] (pm : PathMap C) (dest : C) : List C :=
  (tracePathAux pm.nodes (pm.nodes.length + 1) (some dest) []).reverse

/-- The selection loop of `PathMap::get_next_node`: scans the frontier in
iteration order, taking the first node, then any strictly cheaper one. -/
def getNextLoop {C : Type} [DecidableEq C] (nodes : List (C × PathNode C)) :
    List C → Option C → ℚ → Option C
  | [], best_coords, _ => best_coords
  | coords :: rest, best_coords, lowest_cost =>
    let node := (assocGet nodes coords).getD PathNode.zero
    if best_coords.isNone || decide (node.total_cost < lowest_cost) then
      getNextLoop nodes rest (some coords) node.total_cost
    else
      getNextLoop nodes rest best_coords lowest_cost

/-- `PathMap::get_next_node`: minimum-total-cost frontier coordinate,
`none` when the frontier is empty. -/
def PathMap.get_next_node {C : Type} [DecidableEq C] (pm : PathMap C) : Option C :=
  getNextLoop pm.nodes pm.coords_to_search none 0

/-- `PathMap::set_coords_searched`: moves a coordinate from the frontier
to the visited set. -/
def PathMap.set_coords_searched {C : Type} [DecidableEq C] (pm : PathMap C)
    (searched : C) : PathMap C :=
  { pm with
    coords_to_search := pm.coords_to_search.erase searched,
    searched_coords := setInsert pm.searched_coords searched }

/-- The `while let Some(next_coords) = pathfinder.get_next_node()` loop of
`HexMap::find_path`, with explicit fuel. -/
def findPathAux {C T : Type} [DecidableEq C] (adj : C → List C) (m : HexMap C T)
    (destination : C) (cost_fn : C → C → HexMap C T → ℚ) :
    ℕ → PathMap C → Option (List C)
  | 0, _ => none
  | fuel + 1, pm =>
    match pm.get_next_node with
    | none => none
    | some next_coords =>
      if next_coords = destination then some (pm.trace_path destination)
      else
        findPathAux adj m destination cost_fn fuel
          ((PathMap.eval_coords adj pm next_coords m cost_fn).set_coords_searched next_coords)

/-- `HexMap::find_path` (src/map/mod.rs lines 72-85).  A coordinate enters
the frontier at most once (only when its node is first created), every
discovered coordinate is the start or a key of the map, and each loop
iteration removes one frontier coordinate for good, so the Rust loop runs
at most `m.map.length + 1` times; fuel `m.map.length + 2` therefore never
runs out and the fuelled model computes exactly what the loop computes. -/
def HexMap.find_path {C T : Type} [DecidableEq C] (adj : C → List C) (m : HexMap C T)
    (start destination : C) (cost_fn : C → C → HexMap C T → ℚ) : Option (List C) :=
  findPathAux adj m destination cost_fn (m.map.length + 2) (PathMap.empty.starting_from start)

/-- Reachability through populated tiles: a nonempty chain of 6-neighbor
steps from `start` whose every stepped-onto coordinate (including the
endpoint) holds a stored tile. -/
inductive Reachable {C T : Type} [DecidableEq C] (adj : C → List C) (m : HexMap C T)
    (start : C) : C → Prop
  | step : ∀ {b : C}, b ∈ adj start → (m.get b).isSome = true → Reachable adj m start b
  | tail : ∀ {a b : C}, Reachable adj m start a → b ∈ adj a → (m.get b).isSome = true →
      Reachable adj m start b

end Hexmap

namespace Hexmap

/-- C1: refutation at a concrete input.  `CubeCoords::area` loops
`for i in 0..radius`, dropping `ring(center, radius)`: at radius 0 the
area is empty instead of `[center]` (so `insert_area` populates nothing),
at radius 1 it has 1 element instead of 7, and at radius 2 it has 7
instead of 3·2² + 3·2 + 1 = 19. -/
theorem cube_area_omits_outer_ring :
    CubeCoords.area CubeCoords.ZERO 0 = []
    ∧ (CubeCoords.area CubeCoords.ZERO 1).length = 1
    ∧ (CubeCoords.area CubeCoords.ZERO 2).length = 7 := by
  decide

/-- C2: refutation at a concrete input.  For a center other than the
origin, `CubeCoords::ring` pushes `-corner - dir * i`, reflecting the
opposite edge through the origin instead of through the center: the
radius-1 ring around (1,-1,0) contains (-1,2,-1), which is at distance 3
from the center, and contains (0,0,0) twice. -/
theorem cube_ring_reflects_through_origin :
    CubeCoords.ring ⟨1, -1, 0⟩ 1
      = [⟨1, -2, 1⟩, ⟨-1, 2, -1⟩, ⟨2, -1, -1⟩, ⟨-2, 1, 1⟩, ⟨0, 0, 0⟩, ⟨0, 0, 0⟩]
    ∧ CubeCoords.distance ⟨1, -1, 0⟩ ⟨-1, 2, -1⟩ = 3
    ∧ (CubeCoords.ring ⟨1, -1, 0⟩ 1).count ⟨0, 0, 0⟩ = 2 := by
  decide

/-- C5: refutation at a concrete input.  `line(a, a)` computes
`t = 0.0 / 0.0 = NaN`; the NaN survives the lerp and `NaN.round() as
isize` is 0 on every axis, so `line(a, a)` is `[(0,0,0)]` for every `a`,
not `[a]`. -/
theorem line_degenerate_collapses_to_origin :
    CubeCoords.line ⟨1, 0, -1⟩ ⟨1, 0, -1⟩ = some [⟨0, 0, 0⟩]
    ∧ ([(⟨0, 0, 0⟩ : CubeCoords)] ≠ [(⟨1, 0, -1⟩ : CubeCoords)]) := by
  decide

/-- C4: refutation at a concrete input.  The casts and interpolation of
`line` run in f32, which has a 24-bit significand: for
a = (2^24, -2^24, 0) and b = (2^24 + 1, -(2^24 + 1), 0), which are
distinct and at distance 1, `b.q as f32` rounds 16777217 to the even
neighbor 16777216 (and symmetrically for r), so both samples collapse to
`a` and `line(a, b) = [a, a]` — the last element is not `b` and the
consecutive pair is at distance 0, not 1. -/
theorem line_loses_endpoint_beyond_f32_precision :
    CubeCoords.line ⟨16777216, -16777216, 0⟩ ⟨16777217, -16777217, 0⟩
      = some [⟨16777216, -16777216, 0⟩, ⟨16777216, -16777216, 0⟩]
    ∧ CubeCoords.distance ⟨16777216, -16777216, 0⟩ ⟨16777217, -16777217, 0⟩ = 1
    ∧ ((⟨16777216, -16777216, 0⟩ : CubeCoords) ≠ ⟨16777217, -16777217, 0⟩)
    ∧ CubeCoords.distance ⟨16777216, -16777216, 0⟩ ⟨16777216, -16777216, 0⟩ = 0 := by
  decide

/-- C6: the axial → cube conversion (s = -q-r) round-trips to the
identity through the cube → axial conversion (drop s), lands in the
valid-cube subset, and is inverse to it there: a bijection between axial
coordinates and cube coordinates with q + r + s = 0. -/
theorem axial_cube_conversion_bijective :
    ∀ (a : AxialCoords) (c : CubeCoords),
      AxialCoords.ofCube (CubeCoords.ofAxial a) = a
      ∧ (CubeCoords.ofAxial a).is_valid = true
      ∧ (c.is_valid = true → CubeCoords.ofAxial (AxialCoords.ofCube c) = c) := by
  intro a c
  refine ⟨rfl, ?_, ?_⟩
  · simp [CubeCoords.ofAxial, CubeCoords.is_valid]
  · intro h
    simp [CubeCoords.is_valid] at h
    cases c
    simp [CubeCoords.ofAxial, AxialCoords.ofCube] at h ⊢
    omega

/-- Witness for C6 at concrete inputs. -/
theorem axial_cube_conversion_bijective_witness :
    AxialCoords.ofCube (CubeCoords.ofAxial ⟨1, 2⟩) = ⟨1, 2⟩
    ∧ (CubeCoords.ofAxial ⟨1, 2⟩).is_valid = true
    ∧ CubeCoords.ofAxial (AxialCoords.ofCube ⟨1, 2, -3⟩) = ⟨1, 2, -3⟩ :=
  ⟨(axial_cube_conversion_bijective ⟨1, 2⟩ ⟨1, 2, -3⟩).1,
   (axial_cube_conversion_bijective ⟨1, 2⟩ ⟨1, 2, -3⟩).2.1,
   (axial_cube_conversion_bijective ⟨1, 2⟩ ⟨1, 2, -3⟩).2.2 (by decide)⟩

/-- The tile type of the pathfinding scenario: cheap tiles cost 0.5 to
step onto, expensive tiles 2.0. -/
inductive PathTestTile where
  | cheap : PathTestTile
  | expensive : PathTestTile
deriving DecidableEq, Repr

/-- Scenario map for C3: the direct 4-hop path between (-2,0,2) and
(2,0,-2) runs through the expensive tiles (-1,0,1), (0,0,0), (1,0,-1)
(2.0 per hop), while a 6-hop winding path of cheap tiles
(-1,-1,2), (0,-2,2), (1,-2,1), (2,-2,0), (2,-1,-1), (2,0,-2)
(0.5 per hop, total 3.0) connects the same endpoints. -/
def scenarioB : HexMap CubeCoords PathTestTile :=
  ⟨[ (⟨-2, 0, 2⟩, PathTestTile.cheap),
     (⟨-1, 0, 1⟩, PathTestTile.expensive),
     (⟨0, 0, 0⟩, PathTestTile.expensive),
     (⟨1, 0, -1⟩, PathTestTile.expensive),
     (⟨-1, -1, 2⟩, PathTestTile.cheap),
     (⟨0, -2, 2⟩, PathTestTile.cheap),
     (⟨1, -2, 1⟩, PathTestTile.cheap),
     (⟨2, -2, 0⟩, PathTestTile.cheap),
     (⟨2, -1, -1⟩, PathTestTile.cheap),
     (⟨2, 0, -2⟩, PathTestTile.cheap) ]⟩

/-- The tests' cost function: per-tile traversal cost of the destination
tile (`map.get(end).unwrap()`; `find_path` only prices populated
neighbors, so the unwrap never fails — `none ↦ 0` models that dead
branch). -/
def scenarioCost (_source dest : CubeCoords) (m : HexMap CubeCoords PathTestTile) : ℚ :=
  match m.get dest with
  | some PathTestTile.cheap => 1/2
  | some PathTestTile.expensive => 2
  | none => 0

/-- C3: on the scenario map, `find_path` returns the 6-hop winding path of
cheap tiles (total cost 3.0) rather than the direct 4-hop path through
the expensive tiles. -/
theorem find_path_prefers_cheap_winding_path :
    HexMap.find_path CubeCoords.adjacent scenarioB ⟨-2, 0, 2⟩ ⟨2, 0, -2⟩ scenarioCost
      = some [⟨-1, -1, 2⟩, ⟨0, -2, 2⟩, ⟨1, -2, 1⟩, ⟨2, -2, 0⟩, ⟨2, -1, -1⟩, ⟨2, 0, -2⟩] := by
  with_unfolding_all decide

/-- C8: when start and destination coincide, the very first frontier
selection returns the seed, which equals the destination, and tracing
from a node with no predecessor yields the empty path — for every map and
cost function. -/
theorem find_path_start_eq_destination {C T : Type} [DecidableEq C] (adj : C → List C)
    (m : HexMap C T) (start : C) (cost_fn : C → C → HexMap C T → ℚ) :
    HexMap.find_path adj m start start cost_fn = some [] := by
  show findPathAux adj m start cost_fn (m.map.length + 1 + 1) (PathMap.empty.starting_from start)
    = some []
  simp [findPathAux, PathMap.empty, PathMap.starting_from, PathMap.add_node, setInsert,
    assocInsert, PathMap.get_next_node, getNextLoop, assocGet, PathNode.zero,
    PathMap.trace_path, tracePathAux]

/-- Membership after a `HashSet::insert`. -/
theorem mem_setInsert {C : Type} [DecidableEq C] {l : List C} {x c : C}
    (h : c ∈ setInsert l x) : c ∈ l ∨ c = x := by
  unfold setInsert at h
  split at h
  · exact Or.inl h
  · rcases List.mem_append.mp h with h' | h'
    · exact Or.inl h'
    · exact Or.inr (List.mem_singleton.mp h')

/-- `get_next_node`'s selection loop only ever returns a scanned frontier
coordinate (or the incoming best candidate). -/
theorem getNextLoop_mem {C : Type} [DecidableEq C] (nodes : List (C × PathNode C)) :
    ∀ (l : List C) (best : Option C) (lowest : ℚ) (c : C),
      getNextLoop nodes l best lowest = some c → c ∈ l ∨ best = some c := by
  intro l
  induction l with
  | nil => intro best lowest c h; exact Or.inr h
  | cons x rest ih =>
    intro best lowest c h
    simp only [getNextLoop] at h
    split at h
    · rcases ih _ _ _ h with h' | h'
      · exact Or.inl (List.mem_cons_of_mem _ h')
      · exact Or.inl (Option.some_inj.mp h' ▸ List.mem_cons_self x rest)
    · rcases ih _ _ _ h with h' | h'
      · exact Or.inl (List.mem_cons_of_mem _ h')
      · exact Or.inr h'

/-- `eval_move` grows the frontier at most by its destination. -/
theorem eval_move_frontier {C : Type} [DecidableEq C] (pm : PathMap C) (source dest : C)
    (cost : ℚ) {c : C} (h : c ∈ (pm.eval_move source dest cost).coords_to_search) :
    c ∈ pm.coords_to_search ∨ c = dest := by
  unfold PathMap.eval_move at h
  split at h
  next node heq =>
    split at h
    · exact Or.inl h
    · exact Or.inl h
  next heq =>
    unfold PathMap.insert_node PathMap.get_node at h
    rw [heq] at h
    exact mem_setInsert h

/-- The relaxation fold of `eval_coords` only adds populated neighbors
drawn from the scanned list to the frontier. -/
theorem eval_fold_frontier {C T : Type} [DecidableEq C] (m : HexMap C T) (source : C)
    (g : C → ℚ) :
    ∀ (l : List C) (pm : PathMap C) (c : C),
      c ∈ (l.foldl
            (fun acc neighbor_coord =>
              match m.get neighbor_coord with
              | some _ => acc.eval_move source neighbor_coord (g neighbor_coord)
              | none => acc)
            pm).coords_to_search →
      c ∈ pm.coords_to_search ∨ (c ∈ l ∧ (m.get c).isSome = true) := by
  intro l
  induction l with
  | nil => intro pm c h; exact Or.inl h
  | cons n rest ih =>
    intro pm c h
    rw [List.foldl_cons] at h
    rcases ih _ c h with h' | ⟨hmem, hpop⟩
    · rcases hget : m.get n with _ | t
      · rw [hget] at h'
        exact Or.inl h'
      · rw [hget] at h'
        rcases eval_move_frontier _ _ _ _ h' with h'' | h''
        · exact Or.inl h''
        · subst h''
          exact Or.inr ⟨List.mem_cons_self _ _, by rw [hget]; rfl⟩
    · exact Or.inr ⟨List.mem_cons_of_mem _ hmem, hpop⟩

/-- Every coordinate in the frontier of `eval_coords`'s output was in the
frontier already or is a populated neighbor of the expanded coordinate. -/
theorem eval_coords_frontier {C T : Type} [DecidableEq C] (adj : C → List C)
    (pm : PathMap C) (source : C) (m : HexMap C T) (cost_fn : C → C → HexMap C T → ℚ)
    {c : C} (h : c ∈ (PathMap.eval_coords adj pm source m cost_fn).coords_to_search) :
    c ∈ pm.coords_to_search ∨ (c ∈ adj source ∧ (m.get c).isSome = true) := by
  unfold PathMap.eval_coords at h
  exact eval_fold_frontier m source _ (adj source) pm c h

/-- Core invariant of the search loop: if every frontier coordinate is the
start or reachable from it through populated tiles, and the destination is
neither, the loop never selects the destination and therefore returns
`none` for every fuel. -/
theorem findPathAux_unreachable_none {C T : Type} [DecidableEq C] (adj : C → List C)
    (m : HexMap C T) (start destination : C) (cost_fn : C → C → HexMap C T → ℚ)
    (hne : start ≠ destination)
    (hnr : ¬ Reachable adj m start destination) :
    ∀ (fuel : ℕ) (pm : PathMap C),
      (∀ c ∈ pm.coords_to_search, c = start ∨ Reachable adj m start c) →
      findPathAux adj m destination cost_fn fuel pm = none := by
  intro fuel
  induction fuel with
  | zero => intro pm _; rfl
  | succ fuel ih =>
    intro pm hinv
    unfold findPathAux
    rcases hsel : pm.get_next_node with _ | next
    · rfl
    · have hmem : next ∈ pm.coords_to_search := by
        rcases getNextLoop_mem pm.nodes pm.coords_to_search none 0 next hsel with h | h
        · exact h
        · exact absurd h (by simp)
      have hnext : next = start ∨ Reachable adj m start next := hinv next hmem
      have hne' : next ≠ destination := by
        rcases hnext with h | h
        · exact h ▸ hne
        · intro heq; exact hnr (heq ▸ h)
      simp only [hsel, hne', if_false, reduceCtorEq, ite_false]
      apply ih
      intro c hc
      have hc' : c ∈ (PathMap.eval_coords adj pm next m cost_fn).coords_to_search :=
        List.mem_of_mem_erase hc
      rcases eval_coords_frontier adj pm next m cost_fn hc' with h | ⟨hadj, hpop⟩
      · exact hinv c h
      · rcases hnext with h' | h'
        · exact Or.inr (Reachable.step (h' ▸ hadj) hpop)
        · exact Or.inr (Reachable.tail h' hadj hpop)

/-- C7: whenever no sequence of 6-neighbor steps through populated tiles
leads from `start` to `destination` (in particular whenever the
destination holds no stored tile, since the last step of any such
sequence must land on a stored tile), `find_path` returns `none` — a
normal absent result, for every cost function. -/
theorem find_path_unreachable_none {C T : Type} [DecidableEq C] (adj : C → List C)
    (m : HexMap C T) (start destination : C) (cost_fn : C → C → HexMap C T → ℚ)
    (hne : start ≠ destination)
    (hnr : ¬ Reachable adj m start destination) :
    HexMap.find_path adj m start destination cost_fn = none := by
  apply findPathAux_unreachable_none adj m start destination cost_fn hne hnr
  intro c hc
  simp only [PathMap.starting_from, PathMap.add_node, PathMap.empty] at hc
  rcases mem_setInsert hc with h | h
  · exact absurd h (List.not_mem_nil c)
  · exact Or.inl h

/-- The disconnected two-tile map of the `no_path` test: tiles at
(-1,0,1) and (1,0,-1), which are not adjacent, with nothing connecting
them. -/
def disconnectedMap : HexMap CubeCoords Unit :=
  ⟨[(⟨-1, 0, 1⟩, ()), (⟨1, 0, -1⟩, ())]⟩

/-- No coordinate at all is reachable from (-1,0,1) on the disconnected
map: no populated tile is adjacent to the start, so no chain can begin. -/
theorem disconnectedMap_no_reach :
    ∀ b, ¬ Reachable CubeCoords.adjacent disconnectedMap ⟨-1, 0, 1⟩ b := by
  intro b h
  induction h with
  | step hadj hpop =>
    simp only [CubeCoords.adjacent, CubeCoords.add, CubeCoords.ofAxial, AxialCoords.add,
      AxialCoords.ofCube, List.mem_cons, List.not_mem_nil, or_false] at hadj
    rcases hadj with h | h | h | h | h | h <;>
      · subst h; revert hpop; decide
  | tail _ _ _ ih => exact ih

/-- Witness for C7 on the disconnected two-tile map. -/
theorem find_path_unreachable_none_witness :
    HexMap.find_path CubeCoords.adjacent disconnectedMap ⟨-1, 0, 1⟩ ⟨1, 0, -1⟩
      (fun _ _ _ => 1/2) = none :=
  find_path_unreachable_none CubeCoords.adjacent disconnectedMap ⟨-1, 0, 1⟩ ⟨1, 0, -1⟩
    (fun _ _ _ => 1/2) (by decide) (disconnectedMap_no_reach ⟨1, 0, -1⟩)

/-- C10: `CubeCoords::round` never reaches its final failure branch: for
every input triple, whichever correction axis the rounding-error
comparison selects, recomputing that axis as the negated sum of the other
two restores q + r + s = 0, so the returned value always satisfies the
cube invariant and the `RoundingFailure` panic is unreachable. -/
theorem round_never_fails :
    ∀ q r s : F32, ∃ c, CubeCoords.round q r s = some c ∧ c.is_valid = true := by
  intro q r s
  unfold CubeCoords.round
  by_cases h : (⟨q.toIsize, r.toIsize, s.toIsize⟩ : CubeCoords).is_valid
  · exact ⟨_, by simp [h], h⟩
  · simp only [h, Bool.false_eq_true, if_false]
    split
    · have hv : (⟨-(r.toIsize) - s.toIsize, r.toIsize, s.toIsize⟩ : CubeCoords).is_valid = true := by
        simp only [CubeCoords.is_valid, beq_iff_eq]; ring
      exact ⟨_, by simp [hv], hv⟩
    · split
      · have hv : (⟨q.toIsize, -(q.toIsize) - s.toIsize, s.toIsize⟩ : CubeCoords).is_valid = true := by
          simp only [CubeCoords.is_valid, beq_iff_eq]; ring
        exact ⟨_, by simp [hv], hv⟩
      · have hv : (⟨q.toIsize, r.toIsize, -(q.toIsize) - r.toIsize⟩ : CubeCoords).is_valid = true := by
          simp only [CubeCoords.is_valid, beq_iff_eq]; ring
        exact ⟨_, by simp [hv], hv⟩

end Hexmap
